import Mathlib

/-!
# Verification of the fee-collector-indexer core

Shallow embedding of the indexer's core: the orchestrator loop of
`IndexerOrchestrator.start` (target-block policy, chunk iteration, per-chunk
retry/circuit-breaker, watermark checkpointing), the storage layer
(`EventStorage.saveEvents`, `getLastProcessedBlock`, `updateLastProcessedBlock`)
and the read-side query of `GET /api/events`.

Block numbers, chain ids and retry limits are JavaScript numbers used only at
integer values in the source; they are embedded as `Int` (counts as `Nat`).
The effectful orchestrator loop is embedded as a pure function from an
environment (the outcome of each fallible call, per attempt) to the trace of
actions it performs, in source order; the persistent store is embedded as an
explicit state value threaded through the operations.
-/

namespace FeeIndexer

/-! ## Target-block policy

From `IndexerOrchestrator.start`:

```
let targetBlock: number
if (this.config.endBlock !== undefined) {
  const cappedEndBlock = Math.min(this.config.endBlock, currentBlock)
  if (cappedEndBlock >= currentBlock - this.config.finalityDepth) {
    targetBlock = currentBlock - this.config.finalityDepth
  } else {
    targetBlock = cappedEndBlock
  }
} else {
  targetBlock = currentBlock - this.config.finalityDepth
}
```
-/

/-- The per-cycle target block computed at the top of the orchestrator loop. -/
def targetBlock (endBlock : Option Int) (currentBlock finalityDepth : Int) : Int :=
  match endBlock with
  | some e =>
      let cappedEndBlock := min e currentBlock
      if cappedEndBlock ≥ currentBlock - finalityDepth then
        currentBlock - finalityDepth
      else
        cappedEndBlock
  | none => currentBlock - finalityDepth

/-- The target-height policy as the specification words it (§4.1): continuous
mode uses `currentChainHeight - finalityDepth`; bounded mode caps `endBlock` at
the current height and falls back to `currentChainHeight - finalityDepth`
whenever the capped end lies within `finalityDepth` of the tip. -/
def targetHeightSpec (endBlock : Option Int) (currentChainHeight finalityDepth : Int) : Int :=
  match endBlock with
  | none => currentChainHeight - finalityDepth
  | some e =>
      let cappedEnd := min e currentChainHeight
      if currentChainHeight - finalityDepth ≤ cappedEnd then
        currentChainHeight - finalityDepth
      else
        cappedEnd

/-! ## The caught-up branch

From `IndexerOrchestrator.start`:

```
if (fromBlock > targetBlock) {
  if (this.config.endBlock !== undefined) {
    this.running = false
    break
  }
  await this.sleep(this.config.pollInterval)
  continue
}
```
-/

/-- What the loop does with a cycle, decided right after computing the target. -/
inductive CycleDecision where
  | stop : CycleDecision
  | sleepPoll (ms : Int) : CycleDecision
  | process : CycleDecision
  deriving DecidableEq, Repr

/-- The decision the orchestrator takes once `targetBlock` is known: stop when
caught up in bounded mode, sleep `pollInterval` when caught up in continuous
mode, otherwise process chunks. -/
def cycleDecision (endBlock : Option Int) (fromBlock tgt pollInterval : Int) :
    CycleDecision :=
  if fromBlock > tgt then
    match endBlock with
    | some _ => .stop
    | none => .sleepPoll pollInterval
  else
    .process

/-! ## The store (`EventStorage` over the `IndexerState` collection)

`updateLastProcessedBlock` is a `findOneAndUpdate` on `{ chainId }` with
`{ upsert: true }`; `getLastProcessedBlock` is a `findOne` on `{ chainId }`
returning `state?.lastProcessedBlock ?? null`.  The `indexer_states`
collection keeps at most one document per `chainId` (unique index), so it is
embedded as a function from chain id to the optional stored watermark. -/

/-- State of the `indexer_states` collection: the stored
`lastProcessedBlock` per `chainId`, or `none` when no document exists. -/
def WatermarkState : Type := Int → Option Int

/-- `EventStorage.getLastProcessedBlock`: `findOne({ chainId })`, yielding the
stored block or `null` on first run. -/
def getLastProcessedBlock (st : WatermarkState) (chainId : Int) : Option Int :=
  st chainId

/-- `EventStorage.updateLastProcessedBlock`: upsert of
`{ lastProcessedBlock: blockNumber }` for the `{ chainId }` document. -/
def updateLastProcessedBlock (st : WatermarkState) (chainId blockNumber : Int) :
    WatermarkState :=
  fun c => if c = chainId then some blockNumber else st c

/-- Resuming start block in `IndexerOrchestrator.start`:
`(await this.storage.getLastProcessedBlock(chainId)) ?? this.config.startBlock`. -/
def initialFromBlock (stored : Option Int) (startBlock : Int) : Int :=
  match stored with
  | some w => w
  | none => startBlock

/-! ## Events and `EventStorage.saveEvents`

`FeeCollectedEvent` (types/events.ts): addresses and hashes are strings,
embedded here as lists of characters; the two fee amounts are `BigNumber`s,
embedded as `Int` (the document stores their decimal string — `toString` —
which is a faithful image of the integer). -/

/-- A parsed `FeesCollected` event (`FeeCollectedEvent` in types/events.ts). -/
structure FeeCollectedEvent where
  token : List Char
  integrator : List Char
  integratorFee : Int
  lifiFee : Int
  blockNumber : Int
  transactionHash : List Char
  logIndex : Int
  timestamp : Int
  chainId : Int
  deriving DecidableEq, Repr

/-- The document `saveEvents` builds for one event before `insertMany` (the
`events.map(event => ({...}))` step; fee amounts become decimal strings,
embedded by their integer value). -/
structure EventDocument where
  token : List Char
  integrator : List Char
  integratorFee : Int
  lifiFee : Int
  blockNumber : Int
  transactionHash : List Char
  logIndex : Int
  timestamp : Int
  chainId : Int
  deriving DecidableEq, Repr

/-- The per-event document mapping inside `saveEvents`. -/
def toDocument (event : FeeCollectedEvent) : EventDocument :=
  { token := event.token
    integrator := event.integrator
    integratorFee := event.integratorFee
    lifiFee := event.lifiFee
    blockNumber := event.blockNumber
    transactionHash := event.transactionHash
    logIndex := event.logIndex
    timestamp := event.timestamp
    chainId := event.chainId }

/-- Outcome of the underlying `insertMany` call: success, or a driver error
carrying its numeric `code` (11000 is MongoDB's duplicate-key error). -/
def InsertOutcome : Type := Except Int Unit

/-- `EventStorage.saveEvents`: returns early on an empty batch (no store
call), otherwise runs `insertMany` on the mapped documents and swallows
exactly the duplicate-key error code 11000, rethrowing every other error.
The result pairs the observable outcome with whether `insertMany` was
invoked. -/
def saveEvents (events : List FeeCollectedEvent) (insertOutcome : InsertOutcome) :
    Except Int Unit × Bool :=
  if events.length = 0 then (Except.ok (), false)
  else
    let _documents := events.map toDocument
    (match insertOutcome with
     | .ok () => Except.ok ()
     | .error code => if code ≠ 11000 then Except.error code else Except.ok (), true)

/-! ## Chunk iteration

From the processing loop of `IndexerOrchestrator.start`:

```
let processedUpTo = fromBlock
while (processedUpTo <= targetBlock) {
  const toBlock = Math.min(processedUpTo + this.config.chunkSize - 1, targetBlock)
  ...
  processedUpTo = toBlock + 1
}
```

The successive `[processedUpTo, toBlock]` ranges are materialised as a list,
by recursion on a fuel bound `(targetBlock - fromBlock + 1).toNat` that the
loop never exceeds. -/

/-- Fueled worker for `chunkList`. -/
def chunkListGo (chunkSize tgt : Int) : Nat → Int → List (Int × Int)
  | 0, _ => []
  | fuel + 1, fromBlock =>
      if fromBlock ≤ tgt then
        let toBlock := min (fromBlock + chunkSize - 1) tgt
        (fromBlock, toBlock) :: chunkListGo chunkSize tgt fuel (toBlock + 1)
      else []

/-- The sequence of chunks `[from, to]` the orchestrator's inner `while` loop
iterates over for one cycle. -/
def chunkList (fromBlock tgt chunkSize : Int) : List (Int × Int) :=
  chunkListGo chunkSize tgt (tgt - fromBlock + 1).toNat fromBlock

/-- How many chunks of `cs` contain block `b`. -/
def coverCount (b : Int) (cs : List (Int × Int)) : Nat :=
  cs.countP fun c => decide (c.1 ≤ b ∧ b ≤ c.2)


/-! ## The per-chunk retry loop, as a trace of actions

```
let retryCount = 0
let success = false
while (retryCount < this.maxRetries && !success) {
  try {
    const events = await this.fetcher.fetchEvents(processedUpTo, toBlock)
    await this.storage.saveEvents(events)
    await this.storage.updateLastProcessedBlock(this.config.chainId, toBlock)
    success = true
    processedUpTo = toBlock + 1
  } catch (error) {
    retryCount++
    ...
    if (retryCount < this.maxRetries) {
      await this.sleep(5000)
    }
  }
}
if (!success) {
  logger.error(`[CIRCUIT_BREAKER_ALERT] Failed to process blocks
    ${processedUpTo}-${toBlock} after ${this.maxRetries} attempts. ...
    MANUAL INTERVENTION REQUIRED to backfill blocks ${processedUpTo}-${toBlock}.`)
  processedUpTo = toBlock + 1
}
```

Each attempt makes up to three fallible awaited calls, in source order
`fetchEvents`, `saveEvents`, `updateLastProcessedBlock`; the first to throw
aborts the attempt.  The environment records, per attempt index, which call
(if any) throws.  The loop is embedded as a function from that environment to
the trace of calls performed. -/

/-- Outcome of one `try` body: which awaited call throws, or none. -/
inductive AttemptResult where
  | ok : AttemptResult
  | fetchErr : AttemptResult
  | saveErr : AttemptResult
  | wmErr : AttemptResult
  deriving DecidableEq, Repr

/-- One observable step of the orchestrator.  `fetchOk`/`fetchFail` is a
`fetchEvents(f, t)` call and whether it returned; likewise `saveOk`/`saveFail`
for `saveEvents` of chunk `[f, t]`'s events and `wmOk`/`wmFail` for
`updateLastProcessedBlock(chainId, v)`.  `sleepB ms` is the inter-retry
backoff.  `alert f t mr` is the `[CIRCUIT_BREAKER_ALERT]` log line; its
arguments are exactly the values interpolated into the message template
(`processedUpTo`, `toBlock`, `this.maxRetries` — the template mentions no
chain/source identifier). -/
inductive Action where
  | fetchOk (f t : Int) : Action
  | fetchFail (f t : Int) : Action
  | saveOk (f t : Int) : Action
  | saveFail (f t : Int) : Action
  | wmOk (chainId v : Int) : Action
  | wmFail (chainId v : Int) : Action
  | sleepB (ms : Int) : Action
  | alert (f t : Int) (mr : Nat) : Action
  deriving DecidableEq, Repr

/-- The calls one attempt performs, per outcome, in source order. -/
def attemptActs (chainId f t : Int) : AttemptResult → List Action
  | .ok => [.fetchOk f t, .saveOk f t, .wmOk chainId t]
  | .fetchErr => [.fetchFail f t]
  | .saveErr => [.fetchOk f t, .saveFail f t]
  | .wmErr => [.fetchOk f t, .saveOk f t, .wmFail chainId t]

/-- The retry `while` loop for chunk `[f, t]`: fuel is the remaining retry
budget `maxRetries - retryCount`, `k` the index of the next attempt in `env`.
After a failed attempt the loop sleeps 5000 ms only when budget remains
(`retryCount < this.maxRetries`).  Returns the trace and the `success` flag. -/
def runAttempts (chainId f t : Int) (env : Nat → AttemptResult) :
    Nat → Nat → List Action × Bool
  | 0, _ => ([], false)
  | fuel + 1, k =>
      if env k = .ok then
        (attemptActs chainId f t .ok, true)
      else
        let rest := runAttempts chainId f t env fuel (k + 1)
        (attemptActs chainId f t (env k) ++
          (if 0 < fuel then [.sleepB 5000] else []) ++ rest.1, rest.2)

/-- One chunk's full processing: the retry loop, then — when the budget is
exhausted without success — the single circuit-breaker alert. -/
def processChunk (chainId f t : Int) (maxRetries : Nat) (env : Nat → AttemptResult) :
    List Action × Bool :=
  let r := runAttempts chainId f t env maxRetries 0
  if r.2 then r else (r.1 ++ [.alert f t maxRetries], false)

/-- Fueled worker for `processCycle`: the inner `while (processedUpTo <=
targetBlock)` loop.  Whether a chunk succeeds or is skipped, the loop moves to
`toBlock + 1` (`processedUpTo = toBlock + 1` in both branches).  `env c k` is
the outcome of attempt `k` of the `c`-th remaining chunk. -/
def processCycleGo (chainId chunkSize tgt : Int) (maxRetries : Nat) :
    (Nat → Nat → AttemptResult) → Nat → Int → List Action
  | _, 0, _ => []
  | env, fuel + 1, fromBlock =>
      if fromBlock ≤ tgt then
        let toBlock := min (fromBlock + chunkSize - 1) tgt
        (processChunk chainId fromBlock toBlock maxRetries (env 0)).1 ++
          processCycleGo chainId chunkSize tgt maxRetries
            (fun c => env (c + 1)) fuel (toBlock + 1)
      else []

/-- The trace of one full processing cycle over `[fromBlock, tgt]`. -/
def processCycle (chainId fromBlock tgt chunkSize : Int) (maxRetries : Nat)
    (env : Nat → Nat → AttemptResult) : List Action :=
  processCycleGo chainId chunkSize tgt maxRetries env (tgt - fromBlock + 1).toNat fromBlock

/-- Store effect of one action: a successful `updateLastProcessedBlock` call
upserts its value; every other action (including a failed watermark write)
leaves the store unchanged. -/
def applyAction (st : WatermarkState) : Action → WatermarkState
  | .wmOk chainId v => updateLastProcessedBlock st chainId v
  | _ => st

/-- Replays a trace against the store. -/
def applyActions (st : WatermarkState) (tr : List Action) : WatermarkState :=
  tr.foldl applyAction st

/-- Whether an action is a `fetchEvents(f, t)` call (returning or throwing). -/
def isFetchFor (f t : Int) : Action → Bool
  | .fetchOk f' t' => decide (f' = f ∧ t' = t)
  | .fetchFail f' t' => decide (f' = f ∧ t' = t)
  | _ => false

/-- Whether an action is a circuit-breaker alert naming range `[f, t]`. -/
def isAlertFor (f t : Int) : Action → Bool
  | .alert f' t' _ => decide (f' = f ∧ t' = t)
  | _ => false

/-- Whether an action is a backoff sleep. -/
def isSleep : Action → Bool
  | .sleepB _ => true
  | _ => false

/-- Number of `fetchEvents(f, t)` calls (returning or throwing) in a trace. -/
def fetchCalls (f t : Int) (tr : List Action) : Nat :=
  tr.countP (isFetchFor f t)

/-- Number of circuit-breaker alerts naming range `[f, t]` in a trace. -/
def alertCount (f t : Int) (tr : List Action) : Nat :=
  tr.countP (isAlertFor f t)

/-- Number of backoff sleeps in a trace. -/
def sleepCount (tr : List Action) : Nat :=
  tr.countP isSleep

/-- The successful watermark writes of a trace, in order. -/
def wmOkVals (tr : List Action) : List Int :=
  tr.filterMap fun a => match a with | .wmOk _ v => some v | _ => none

/-- The numeric values interpolated into an alert's log message
(`processedUpTo`, `toBlock`, `maxRetries`, `processedUpTo`, `toBlock`). -/
def alertFields : Action → List Int
  | .alert f t mr => [f, t, (mr : Int), f, t]
  | _ => []

/-- Whether an action is the circuit-breaker alert. -/
def isAlert : Action → Bool
  | .alert _ _ _ => true
  | _ => false

/-! ## Fetch-then-persist-then-checkpoint ordering -/

/-- Local ordering constraint at one trace position, given the preceding
action: a `saveEvents` call for chunk `[f, t]` happens right after the
successful `fetchEvents(f, t)` that produced its argument, and an
`updateLastProcessedBlock(_, v)` call happens right after a `saveEvents` for a
chunk whose upper bound is `v` has returned without error. -/
def attemptStepOk (prev : Option Action) (a : Action) : Bool :=
  match a with
  | .saveOk f t => decide (prev = some (.fetchOk f t))
  | .saveFail f t => decide (prev = some (.fetchOk f t))
  | .wmOk _ v =>
      match prev with
      | some (.saveOk _ t) => decide (t = v)
      | _ => false
  | .wmFail _ v =>
      match prev with
      | some (.saveOk _ t) => decide (t = v)
      | _ => false
  | _ => true

/-- `attemptStepOk` holds at every position of the trace, threading the
preceding action (`prev` for the head). -/
def orderedFrom (prev : Option Action) : List Action → Bool
  | [] => true
  | a :: rest => attemptStepOk prev a && orderedFrom (some a) rest

/-! ## Concrete scenario environments and the read-side query -/

/-- The empty `indexer_states` collection (first run). -/
def emptyWm : WatermarkState := fun _ => none

/-- Environment of the spec's circuit-breaker scenario: every attempt of the
first chunk throws inside `fetchEvents`; every later chunk succeeds on its
first attempt. -/
def envC4 : Nat → Nat → AttemptResult :=
  fun c _ => if c = 0 then .fetchErr else .ok

/-- Environment of the spec's retry-then-succeed scenario: the first three
attempts throw inside `fetchEvents`, the fourth succeeds. -/
def envC5 : Nat → AttemptResult :=
  fun k => if k < 3 then .fetchErr else .ok

/-- Lowercase normalization of an address, as `.toLowerCase()` /
`@prop({ lowercase: true })` perform it (strings embedded as char lists). -/
def toLowerAddr (a : List Char) : List Char :=
  a.map Char.toLower

/-- The read path's order: `.sort({ blockNumber: 1, logIndex: 1 })` — block
number ascending, then log index ascending. -/
def eventsLe (e1 e2 : EventDocument) : Prop :=
  e1.blockNumber < e2.blockNumber ∨
    (e1.blockNumber = e2.blockNumber ∧ e1.logIndex ≤ e2.logIndex)

instance : DecidableRel eventsLe := fun e1 e2 => by
  unfold eventsLe
  infer_instance

instance : IsTotal EventDocument eventsLe :=
  ⟨fun a b => by unfold eventsLe; omega⟩

instance : IsTrans EventDocument eventsLe :=
  ⟨fun a b c h1 h2 => by unfold eventsLe at h1 h2 ⊢; omega⟩

/-- The `GET /api/events` handler's query (api/routes.ts): normalize the
query address to lowercase, take the stored documents whose `integrator`
equals it, ordered by `blockNumber` then `logIndex` ascending (the stored
collection is embedded as the list `db`; the sort is embedded as insertion
sort by the handler's sort key). -/
def getEventsForIntegrator (db : List EventDocument) (integratorParam : List Char) :
    List EventDocument :=
  let integrator := toLowerAddr integratorParam
  List.insertionSort eventsLe (db.filter fun e => decide (e.integrator = integrator))

/-! ## Chunk-list lemmas -/

theorem chunkListGo_of_gt (chunkSize tgt : Int) (fuel : Nat) (fromBlock : Int)
    (h : ¬ fromBlock ≤ tgt) : chunkListGo chunkSize tgt fuel fromBlock = [] := by
  cases fuel <;> simp [chunkListGo, h]

theorem chunkListGo_spec (chunkSize tgt : Int) (hcs : 1 ≤ chunkSize) :
    ∀ (fuel : Nat) (fromBlock : Int), fromBlock ≤ tgt →
      tgt - fromBlock + 1 ≤ (fuel : Int) →
      (∀ b, coverCount b (chunkListGo chunkSize tgt fuel fromBlock) =
          if fromBlock ≤ b ∧ b ≤ tgt then 1 else 0) ∧
      List.Chain' (fun c d => d.1 = c.2 + 1) (chunkListGo chunkSize tgt fuel fromBlock) ∧
      (∀ c ∈ chunkListGo chunkSize tgt fuel fromBlock,
          c.1 ≤ c.2 ∧ c.2 - c.1 + 1 ≤ chunkSize ∧ c.2 = min (c.1 + chunkSize - 1) tgt) ∧
      (chunkListGo chunkSize tgt fuel fromBlock).head? =
        some (fromBlock, min (fromBlock + chunkSize - 1) tgt) := by
  intro fuel
  induction fuel with
  | zero =>
      intro fromBlock hle hfuel
      exfalso
      simp only [Nat.cast_zero] at hfuel
      omega
  | succ fuel ih =>
      intro fromBlock hle hfuel
      simp only [chunkListGo, if_pos hle]
      set toBlock := min (fromBlock + chunkSize - 1) tgt with htoBlock
      have hfrom_to : fromBlock ≤ toBlock := by omega
      by_cases hlast : tgt ≤ toBlock
      · -- final chunk: the recursive call starts past the target and is empty
        have htail : chunkListGo chunkSize tgt fuel (toBlock + 1) = [] :=
          chunkListGo_of_gt _ _ _ _ (by omega)
        rw [htail]
        refine ⟨?_, ?_, ?_, rfl⟩
        · intro b
          simp only [coverCount, List.countP_cons, List.countP_nil]
          by_cases hb : fromBlock ≤ b ∧ b ≤ tgt <;> simp [hb] <;> omega
        · simp
        · intro c hc
          simp only [List.mem_singleton] at hc
          subst hc
          refine ⟨by simp; omega, by simp; omega, by simp⟩
      · -- more chunks follow; use the induction hypothesis at toBlock + 1
        have hto : toBlock = fromBlock + chunkSize - 1 := by omega
        obtain ⟨ihcov, ihchain, ihlen, ihhead⟩ :=
          ih (toBlock + 1) (by omega) (by omega)
        refine ⟨?_, ?_, ?_, rfl⟩
        · intro b
          have := ihcov b
          simp only [coverCount, List.countP_cons] at this ⊢
          rw [this]
          by_cases hb1 : fromBlock ≤ b ∧ b ≤ toBlock <;>
            by_cases hb2 : toBlock + 1 ≤ b ∧ b ≤ tgt <;>
            by_cases hb3 : fromBlock ≤ b ∧ b ≤ tgt <;>
            simp [hb1, hb2, hb3] <;> omega
        · rw [List.chain'_cons']
          refine ⟨fun d hd => ?_, ihchain⟩
          rw [ihhead] at hd
          simp only [Option.mem_def, Option.some.injEq] at hd
          subst hd
          rfl
        · intro c hc
          rcases List.mem_cons.mp hc with hc | hc
          · subst hc
            refine ⟨by simp; omega, by simp; omega, by simp⟩
          · exact ihlen c hc

theorem chunkList_spec (fromBlock tgt chunkSize : Int) (hle : fromBlock ≤ tgt)
    (hcs : 1 ≤ chunkSize) :
    (∀ b, coverCount b (chunkList fromBlock tgt chunkSize) =
        if fromBlock ≤ b ∧ b ≤ tgt then 1 else 0) ∧
    List.Chain' (fun c d => d.1 = c.2 + 1) (chunkList fromBlock tgt chunkSize) ∧
    (∀ c ∈ chunkList fromBlock tgt chunkSize,
        c.1 ≤ c.2 ∧ c.2 - c.1 + 1 ≤ chunkSize ∧ c.2 = min (c.1 + chunkSize - 1) tgt) ∧
    (chunkList fromBlock tgt chunkSize).head? =
      some (fromBlock, min (fromBlock + chunkSize - 1) tgt) :=
  chunkListGo_spec chunkSize tgt hcs _ fromBlock hle
    (by rw [Int.toNat_of_nonneg (by omega)])

theorem orderedFrom_append (p : Option Action) (l1 l2 : List Action)
    (h1 : orderedFrom p l1 = true) (h2 : ∀ q, orderedFrom q l2 = true) :
    orderedFrom p (l1 ++ l2) = true := by
  induction l1 generalizing p with
  | nil => simpa using h2 p
  | cons a l1 ih =>
      simp only [orderedFrom, List.cons_append, Bool.and_eq_true] at h1 ⊢
      exact ⟨h1.1, ih (some a) h1.2⟩

theorem orderedFrom_attemptActs (chainId f t : Int) (r : AttemptResult)
    (q : Option Action) : orderedFrom q (attemptActs chainId f t r) = true := by
  cases r <;> simp [attemptActs, orderedFrom, attemptStepOk]

theorem orderedFrom_runAttempts (chainId f t : Int) (env : Nat → AttemptResult) :
    ∀ (fuel k : Nat) (q : Option Action),
      orderedFrom q (runAttempts chainId f t env fuel k).1 = true := by
  intro fuel
  induction fuel with
  | zero => intro k q; simp [runAttempts, orderedFrom]
  | succ fuel ih =>
      intro k q
      by_cases h : env k = .ok
      · simp only [runAttempts, if_pos h]
        exact orderedFrom_attemptActs chainId f t .ok q
      · simp only [runAttempts, if_neg h]
        rw [List.append_assoc]
        refine orderedFrom_append _ _ _ (orderedFrom_attemptActs chainId f t _ q) ?_
        intro q'
        refine orderedFrom_append _ _ _ ?_ fun q'' => ih (k + 1) q''
        by_cases hf : 0 < fuel <;> simp [hf, orderedFrom, attemptStepOk]

theorem orderedFrom_processChunk (chainId f t : Int) (maxRetries : Nat)
    (env : Nat → AttemptResult) (q : Option Action) :
    orderedFrom q (processChunk chainId f t maxRetries env).1 = true := by
  unfold processChunk
  by_cases h : (runAttempts chainId f t env maxRetries 0).2 <;> simp only [h, if_pos, if_neg]
  · exact orderedFrom_runAttempts chainId f t env maxRetries 0 q
  · simp only [Bool.false_eq_true, if_neg, not_false_iff]
    exact orderedFrom_append _ _ _ (orderedFrom_runAttempts chainId f t env maxRetries 0 q)
      (fun q' => by simp [orderedFrom, attemptStepOk])

theorem orderedFrom_processCycleGo (chainId chunkSize tgt : Int) (maxRetries : Nat) :
    ∀ (env : Nat → Nat → AttemptResult) (fuel : Nat) (fromBlock : Int) (q : Option Action),
      orderedFrom q (processCycleGo chainId chunkSize tgt maxRetries env fuel fromBlock) = true := by
  intro env fuel
  induction fuel generalizing env with
  | zero => intro fromBlock q; simp [processCycleGo, orderedFrom]
  | succ fuel ih =>
      intro fromBlock q
      by_cases h : fromBlock ≤ tgt
      · simp only [processCycleGo, if_pos h]
        exact orderedFrom_append _ _ _
          (orderedFrom_processChunk chainId fromBlock _ maxRetries (env 0) q)
          (fun q' => ih (fun c => env (c + 1)) _ q')
      · simp [processCycleGo, if_neg h, orderedFrom]

/-! ## Counting and watermark-value lemmas -/

theorem wmOkVals_append (l1 l2 : List Action) :
    wmOkVals (l1 ++ l2) = wmOkVals l1 ++ wmOkVals l2 :=
  List.filterMap_append l1 l2 _

theorem fetchCalls_append (f t : Int) (l1 l2 : List Action) :
    fetchCalls f t (l1 ++ l2) = fetchCalls f t l1 + fetchCalls f t l2 := by
  simp [fetchCalls, List.countP_append]

theorem alertCount_append (f t : Int) (l1 l2 : List Action) :
    alertCount f t (l1 ++ l2) = alertCount f t l1 + alertCount f t l2 := by
  simp [alertCount, List.countP_append]

theorem sleepCount_append (l1 l2 : List Action) :
    sleepCount (l1 ++ l2) = sleepCount l1 + sleepCount l2 := by
  simp [sleepCount, List.countP_append]

theorem fetchCalls_backoff (f t : Int) (fuel : Nat) :
    fetchCalls f t (if 0 < fuel then [Action.sleepB 5000] else []) = 0 := by
  by_cases hf : 0 < fuel <;> simp [hf, fetchCalls, isFetchFor]

theorem alertCount_backoff (f t : Int) (fuel : Nat) :
    alertCount f t (if 0 < fuel then [Action.sleepB 5000] else []) = 0 := by
  by_cases hf : 0 < fuel <;> simp [hf, alertCount, isAlertFor]

theorem sleepCount_backoff (fuel : Nat) :
    sleepCount (if 0 < fuel then [Action.sleepB 5000] else []) =
      if 0 < fuel then 1 else 0 := by
  by_cases hf : 0 < fuel <;> simp [hf, sleepCount, isSleep]

theorem wmOkVals_backoff (fuel : Nat) :
    wmOkVals (if 0 < fuel then [Action.sleepB 5000] else []) = [] := by
  by_cases hf : 0 < fuel <;> simp [hf, wmOkVals]

theorem attemptActs_counts (chainId f t : Int) (r : AttemptResult) :
    fetchCalls f t (attemptActs chainId f t r) = 1 ∧
    sleepCount (attemptActs chainId f t r) = 0 ∧
    alertCount f t (attemptActs chainId f t r) = 0 := by
  cases r <;>
    simp [attemptActs, fetchCalls, sleepCount, alertCount, isFetchFor, isSleep, isAlertFor]

theorem attemptActs_wmOkVals_fail (chainId f t : Int) (r : AttemptResult)
    (h : r ≠ .ok) : wmOkVals (attemptActs chainId f t r) = [] := by
  cases r <;> simp_all [attemptActs, wmOkVals]

theorem wmOkVals_runAttempts (chainId f t : Int) (env : Nat → AttemptResult) :
    ∀ (fuel k : Nat) (v : Int), v ∈ wmOkVals (runAttempts chainId f t env fuel k).1 → v = t := by
  intro fuel
  induction fuel with
  | zero => intro k v hv; simp [runAttempts, wmOkVals] at hv
  | succ fuel ih =>
      intro k v hv
      by_cases h : env k = .ok
      · simp only [runAttempts, if_pos h] at hv
        simp [attemptActs, wmOkVals] at hv
        omega
      · simp only [runAttempts, if_neg h] at hv
        simp only [wmOkVals, List.filterMap_append, List.mem_append] at hv
        rcases hv with (hv | hv) | hv
        · rw [show List.filterMap _ (attemptActs chainId f t (env k)) =
              wmOkVals (attemptActs chainId f t (env k)) from rfl,
            attemptActs_wmOkVals_fail chainId f t (env k) h] at hv
          simp at hv
        · by_cases hf : 0 < fuel <;> simp [hf, wmOkVals] at hv
        · exact ih (k + 1) v hv

theorem wmOkVals_processChunk (chainId f t : Int) (mr : Nat)
    (env : Nat → AttemptResult) (v : Int)
    (hv : v ∈ wmOkVals (processChunk chainId f t mr env).1) : v = t := by
  unfold processChunk at hv
  by_cases h : (runAttempts chainId f t env mr 0).2 <;> simp only [h] at hv
  · simp only [if_pos] at hv
    exact wmOkVals_runAttempts chainId f t env mr 0 v hv
  · simp only [Bool.false_eq_true, if_neg, not_false_iff, wmOkVals,
      List.filterMap_append, List.mem_append] at hv
    rcases hv with hv | hv
    · exact wmOkVals_runAttempts chainId f t env mr 0 v hv
    · simp at hv

theorem pairwise_le_of_all_eq (t : Int) :
    ∀ l : List Int, (∀ v ∈ l, v = t) → l.Pairwise (· ≤ ·) := by
  intro l
  induction l with
  | nil => intro _; exact List.Pairwise.nil
  | cons a l ih =>
      intro h
      refine List.Pairwise.cons (fun b hb => ?_) (ih fun v hv => h v (List.mem_cons_of_mem a hv))
      rw [h a (List.mem_cons_self a l), h b (List.mem_cons_of_mem a hb)]

theorem wmOkVals_processCycleGo (chainId chunkSize tgt : Int) (mr : Nat)
    (hcs : 1 ≤ chunkSize) :
    ∀ (fuel : Nat) (env : Nat → Nat → AttemptResult) (fromBlock : Int),
      (∀ v ∈ wmOkVals (processCycleGo chainId chunkSize tgt mr env fuel fromBlock),
          fromBlock ≤ v ∧ v ≤ tgt) ∧
      (wmOkVals (processCycleGo chainId chunkSize tgt mr env fuel fromBlock)).Pairwise
        (· ≤ ·) := by
  intro fuel
  induction fuel with
  | zero => intro env fromBlock; simp [processCycleGo, wmOkVals]
  | succ fuel ih =>
      intro env fromBlock
      by_cases h : fromBlock ≤ tgt
      · simp only [processCycleGo, if_pos h]
        set toBlock := min (fromBlock + chunkSize - 1) tgt with htoBlock
        have hft : fromBlock ≤ toBlock := by omega
        have htt : toBlock ≤ tgt := by omega
        obtain ⟨ihmem, ihpw⟩ := ih (fun c => env (c + 1)) (toBlock + 1)
        have hchunk : ∀ v ∈ wmOkVals (processChunk chainId fromBlock toBlock mr (env 0)).1,
            v = toBlock := fun v hv => wmOkVals_processChunk chainId fromBlock toBlock mr (env 0) v hv
        rw [wmOkVals_append]
        constructor
        · intro v hv
          rcases List.mem_append.mp hv with hv | hv
          · have := hchunk v hv
            omega
          · have := ihmem v hv
            omega
        · rw [List.pairwise_append]
          refine ⟨pairwise_le_of_all_eq toBlock _ hchunk, ihpw, fun a ha b hb => ?_⟩
          have h1 := hchunk a ha
          have h2 := ihmem b hb
          omega
      · simp [processCycleGo, if_neg h, wmOkVals]

/-! ## Retry-loop exhaustion and failure-kind indifference -/

theorem runAttempts_all_fail (chainId f t : Int) (env : Nat → AttemptResult)
    (hfail : ∀ k, env k ≠ .ok) :
    ∀ (fuel k : Nat),
      (runAttempts chainId f t env fuel k).2 = false ∧
      fetchCalls f t (runAttempts chainId f t env fuel k).1 = fuel ∧
      sleepCount (runAttempts chainId f t env fuel k).1 = fuel - 1 ∧
      wmOkVals (runAttempts chainId f t env fuel k).1 = [] ∧
      alertCount f t (runAttempts chainId f t env fuel k).1 = 0 := by
  intro fuel
  induction fuel with
  | zero => intro k; simp [runAttempts, fetchCalls, sleepCount, wmOkVals, alertCount]
  | succ fuel ih =>
      intro k
      obtain ⟨ihs, ihf, ihsl, ihw, iha⟩ := ih (k + 1)
      obtain ⟨haf, has, haa⟩ := attemptActs_counts chainId f t (env k)
      have haw := attemptActs_wmOkVals_fail chainId f t (env k) (hfail k)
      simp only [runAttempts, if_neg (hfail k)]
      refine ⟨ihs, ?_, ?_, ?_, ?_⟩
      · simp only [fetchCalls_append, haf, ihf, fetchCalls_backoff]
        omega
      · simp only [sleepCount_append, has, ihsl, sleepCount_backoff]
        by_cases hf : 0 < fuel <;> simp only [hf, if_pos, if_neg, not_false_iff] <;> omega
      · simp only [wmOkVals_append, ihw, haw, wmOkVals_backoff, List.append_nil,
          List.nil_append]
      · simp only [alertCount_append, haa, iha, alertCount_backoff]

theorem runAttempts_env_invariant (chainId f t : Int) (env1 env2 : Nat → AttemptResult)
    (henv : ∀ k, env1 k = .ok ↔ env2 k = .ok) :
    ∀ (fuel k : Nat),
      (runAttempts chainId f t env1 fuel k).2 = (runAttempts chainId f t env2 fuel k).2 ∧
      fetchCalls f t (runAttempts chainId f t env1 fuel k).1 =
        fetchCalls f t (runAttempts chainId f t env2 fuel k).1 ∧
      sleepCount (runAttempts chainId f t env1 fuel k).1 =
        sleepCount (runAttempts chainId f t env2 fuel k).1 := by
  intro fuel
  induction fuel with
  | zero => intro k; simp [runAttempts]
  | succ fuel ih =>
      intro k
      obtain ⟨ihs, ihf, ihsl⟩ := ih (k + 1)
      obtain ⟨haf1, has1, _⟩ := attemptActs_counts chainId f t (env1 k)
      obtain ⟨haf2, has2, _⟩ := attemptActs_counts chainId f t (env2 k)
      by_cases h : env1 k = .ok
      · have h2 : env2 k = .ok := (henv k).mp h
        simp [runAttempts, if_pos h, if_pos h2]
      · have h2 : ¬ env2 k = .ok := fun hc => h ((henv k).mpr hc)
        simp only [runAttempts, if_neg h, if_neg h2]
        refine ⟨ihs, ?_, ?_⟩
        · simp only [fetchCalls_append, haf1, haf2, ihf, fetchCalls_backoff]
        · simp only [sleepCount_append, has1, has2, ihsl, sleepCount_backoff]

/-! ## Replay lemmas and single-step unfoldings of the retry loop -/

theorem applyActions_append (st : WatermarkState) (l1 l2 : List Action) :
    applyActions st (l1 ++ l2) = applyActions (applyActions st l1) l2 :=
  List.foldl_append _ _ _ _

theorem applyActions_of_no_wmOk (tr : List Action) :
    wmOkVals tr = [] → ∀ st, applyActions st tr = st := by
  induction tr with
  | nil => intro _ st; rfl
  | cons a rest ih =>
      intro h st
      cases a <;> simp_all [wmOkVals, applyActions, applyAction]

theorem runAttempts_first_ok (chainId f t : Int) (env : Nat → AttemptResult)
    (fuel k : Nat) (h : env k = .ok) :
    runAttempts chainId f t env (fuel + 1) k =
      ([.fetchOk f t, .saveOk f t, .wmOk chainId t], true) := by
  simp [runAttempts, h, attemptActs]

theorem runAttempts_step_fail (chainId f t : Int) (env : Nat → AttemptResult)
    (fuel k : Nat) (h : env k ≠ .ok) :
    runAttempts chainId f t env (fuel + 1) k =
      (attemptActs chainId f t (env k) ++
        ((if 0 < fuel then [Action.sleepB 5000] else []) ++
          (runAttempts chainId f t env fuel (k + 1)).1),
       (runAttempts chainId f t env fuel (k + 1)).2) := by
  simp [runAttempts, h]

/-! ## Lowercase normalization is idempotent -/

theorem toNat_ofNat_small (m : Nat) (h : m < 0xd800) : (Char.ofNat m).toNat = m := by
  have hv : m.isValidChar := Or.inl h
  rw [Char.ofNat, dif_pos hv]
  rfl

theorem toLower_toLower (c : Char) : Char.toLower (Char.toLower c) = Char.toLower c := by
  by_cases h : 65 ≤ c.toNat ∧ c.toNat ≤ 90
  · have h1 : Char.toLower c = Char.ofNat (c.toNat + 32) := by
      simp only [Char.toLower, ge_iff_le]
      exact if_pos h
    rw [h1]
    simp only [Char.toLower, ge_iff_le]
    rw [toNat_ofNat_small (c.toNat + 32) (by omega)]
    rw [if_neg (by omega)]
  · have h1 : Char.toLower c = c := by
      simp only [Char.toLower, ge_iff_le]
      exact if_neg h
    rw [h1, h1]

theorem toLowerAddr_idem (a : List Char) : toLowerAddr (toLowerAddr a) = toLowerAddr a := by
  induction a with
  | nil => rfl
  | cons c a ih =>
      simp only [toLowerAddr, List.map_cons, List.map_map] at ih ⊢
      rw [List.cons.injEq]
      exact ⟨toLower_toLower c, ih⟩

theorem fetchCalls_sleep (f t : Int) (ms : Int) :
    fetchCalls f t [Action.sleepB ms] = 0 := by
  simp [fetchCalls, isFetchFor]

theorem sleepCount_sleep (ms : Int) : sleepCount [Action.sleepB ms] = 1 := by
  simp [sleepCount, isSleep]

theorem alertCount_sleep (f t : Int) (ms : Int) :
    alertCount f t [Action.sleepB ms] = 0 := by
  simp [alertCount, isAlertFor]

theorem wmOkVals_sleep (ms : Int) : wmOkVals [Action.sleepB ms] = [] := by
  simp [wmOkVals]

theorem attemptActs_wmOkVals_ok (chainId f t : Int) :
    wmOkVals (attemptActs chainId f t .ok) = [t] := by
  simp [attemptActs, wmOkVals]

theorem getLast_applyActions_okBlock (chainId f t : Int) (st : WatermarkState) :
    getLastProcessedBlock (applyActions st (attemptActs chainId f t .ok)) chainId =
      some t := by
  simp [attemptActs, applyActions, applyAction, updateLastProcessedBlock,
    getLastProcessedBlock]

/-! ## Claim theorems -/

/-- C2: for every `fromBlock ≤ targetBlock` and `chunkSize ≥ 1`, the chunk
sequence the orchestrator iterates over walks upward from `fromBlock` with
each chunk's `to = min(from + chunkSize - 1, targetBlock)`: every block of
`[fromBlock, targetBlock]` lies in exactly one chunk and no block outside it
lies in any (no gaps, no overlaps), consecutive chunks are contiguous and
ascending, every chunk is nonempty of length at most `chunkSize`, and the
first chunk starts at `fromBlock`. -/
theorem chunk_coverage (fromBlock tgt chunkSize : Int) (hle : fromBlock ≤ tgt)
    (hcs : 1 ≤ chunkSize) :
    (∀ b, coverCount b (chunkList fromBlock tgt chunkSize) =
        if fromBlock ≤ b ∧ b ≤ tgt then 1 else 0) ∧
    List.Chain' (fun c d => d.1 = c.2 + 1) (chunkList fromBlock tgt chunkSize) ∧
    (∀ c ∈ chunkList fromBlock tgt chunkSize,
        c.1 ≤ c.2 ∧ c.2 - c.1 + 1 ≤ chunkSize ∧ c.2 = min (c.1 + chunkSize - 1) tgt) ∧
    (chunkList fromBlock tgt chunkSize).head? =
      some (fromBlock, min (fromBlock + chunkSize - 1) tgt) :=
  chunkList_spec fromBlock tgt chunkSize hle hcs

theorem chunk_coverage_witness :
    (∀ b, coverCount b (chunkList 100 119 10) =
        if (100 : Int) ≤ b ∧ b ≤ 119 then 1 else 0) ∧
    List.Chain' (fun c d => d.1 = c.2 + 1) (chunkList 100 119 10) ∧
    (∀ c ∈ chunkList 100 119 10,
        c.1 ≤ c.2 ∧ c.2 - c.1 + 1 ≤ 10 ∧ c.2 = min (c.1 + 10 - 1) 119) ∧
    (chunkList 100 119 10).head? = some (100, min (100 + 10 - 1) 119) :=
  chunk_coverage 100 119 10 (by decide) (by decide)

/-- C3: the per-cycle target block follows the finality policy: with no
`endBlock` it is `currentBlock - finalityDepth`; with an `endBlock`, the end
is capped at the current height and, when the capped end lies within
`finalityDepth` of the tip, `currentBlock - finalityDepth` is used instead.
Concretely: height 1000, depth 128 gives 872 with no end bound; end 500
gives 500; end 950 gives 872; end 5000000 gives 872. -/
theorem finality_policy :
    (∀ (endBlock : Option Int) (currentBlock finalityDepth : Int),
        targetBlock endBlock currentBlock finalityDepth =
          targetHeightSpec endBlock currentBlock finalityDepth) ∧
    targetBlock none 1000 128 = 872 ∧
    targetBlock (some 500) 1000 128 = 500 ∧
    targetBlock (some 950) 1000 128 = 872 ∧
    targetBlock (some 5000000) 1000 128 = 872 := by
  refine ⟨?_, by decide, by decide, by decide, by decide⟩
  intro endBlock currentBlock finalityDepth
  cases endBlock <;> simp [targetBlock, targetHeightSpec, ge_iff_le]

/-- C6 (amended): when a cycle finds `fromBlock > targetBlock` there is
nothing to process; with an `endBlock` configured the loop stops — whether or
not the watermark has reached `endBlock` — and in continuous mode it sleeps
for `pollInterval` and polls again; when `fromBlock ≤ targetBlock` the cycle
processes chunks. -/
theorem caught_up_decision (e fromBlock tgt pollInterval : Int)
    (h : tgt < fromBlock) :
    cycleDecision (some e) fromBlock tgt pollInterval = .stop ∧
    cycleDecision none fromBlock tgt pollInterval = .sleepPoll pollInterval ∧
    (∀ (endBlock : Option Int) (fb : Int), fb ≤ tgt →
        cycleDecision endBlock fb tgt pollInterval = .process) := by
  refine ⟨?_, ?_, ?_⟩
  · simp [cycleDecision, h]
  · simp [cycleDecision, h]
  · intro endBlock fb hfb
    simp [cycleDecision, not_lt.mpr hfb]

theorem caught_up_decision_witness :
    cycleDecision (some 200) 100 22 1000 = .stop ∧
    cycleDecision none 100 22 1000 = .sleepPoll 1000 ∧
    (∀ (endBlock : Option Int) (fb : Int), fb ≤ 22 →
        cycleDecision endBlock fb 22 1000 = .process) :=
  caught_up_decision 200 100 22 1000 (by decide)

/-- C6 counterexample to the claim as stated: with `endBlock = 200`,
`currentBlock = 150`, `finalityDepth = 128` the target is 22, so a cycle
starting at block 100 stops although block 100 ≤ 200 — the configured
`endBlock` has not been reached (no block up to it was processed). The loop
stops whenever `endBlock` is configured and `fromBlock > targetBlock`, not
only when `endBlock` has been reached. -/
theorem caught_up_decision_counterexample :
    targetBlock (some 200) 150 128 = 22 ∧
    cycleDecision (some 200) 100 (targetBlock (some 200) 150 128) 1000 =
      .stop ∧
    (100 : Int) ≤ 200 := by
  decide

/-- C7: `saveEvents` with an empty batch returns without error and performs
no store write; with a non-empty batch, a duplicate-key violation of the
unique natural key (driver error code 11000) is swallowed as already-stored,
while every other persistence failure is propagated to the caller. -/
theorem saveEvents_policy (events : List FeeCollectedEvent) (o : InsertOutcome)
    (hne : events ≠ []) :
    saveEvents [] o = (Except.ok (), false) ∧
    saveEvents events (Except.error 11000) = (Except.ok (), true) ∧
    (∀ code : Int, code ≠ 11000 →
        saveEvents events (Except.error code) = (Except.error code, true)) ∧
    saveEvents events (Except.ok ()) = (Except.ok (), true) := by
  have hlen : ¬ events.length = 0 := by
    simpa [List.length_eq_zero] using hne
  refine ⟨?_, ?_, ?_, ?_⟩
  · cases o <;> simp [saveEvents]
  · simp [saveEvents, hlen]
  · intro code hc
    simp [saveEvents, hlen, hc]
  · simp [saveEvents, hlen]

theorem saveEvents_policy_witness :
    let ev : FeeCollectedEvent :=
      { token := ['a'], integrator := ['b'], integratorFee := 1, lifiFee := 2,
        blockNumber := 3, transactionHash := ['c'], logIndex := 0,
        timestamp := 4, chainId := 137 }
    saveEvents [] (Except.ok ()) = (Except.ok (), false) ∧
    saveEvents [ev] (Except.error 11000) = (Except.ok (), true) ∧
    (∀ code : Int, code ≠ 11000 →
        saveEvents [ev] (Except.error code) = (Except.error code, true)) ∧
    saveEvents [ev] (Except.ok ()) = (Except.ok (), true) :=
  saveEvents_policy _ (Except.ok ()) (by simp)

/-- C9: `updateLastProcessedBlock` has upsert semantics: after it succeeds
for `(chainId, blockNumber)`, `getLastProcessedBlock chainId` returns exactly
`blockNumber`, for every prior store state — created when absent, overwritten
when present, and in particular overwritten even by a lower value than the
one stored (the store imposes no monotonicity check, as the second conjunct
shows by writing `b` over the higher `b + 1`). -/
theorem watermark_upsert (st : WatermarkState) (chainId b : Int) :
    getLastProcessedBlock (updateLastProcessedBlock st chainId b) chainId = some b ∧
    getLastProcessedBlock
      (updateLastProcessedBlock (updateLastProcessedBlock st chainId (b + 1)) chainId b)
      chainId = some b ∧
    (∀ c, c = chainId ∨
        getLastProcessedBlock (updateLastProcessedBlock st chainId b) c =
          getLastProcessedBlock st c) := by
  refine ⟨?_, ?_, ?_⟩
  · simp [getLastProcessedBlock, updateLastProcessedBlock]
  · simp [getLastProcessedBlock, updateLastProcessedBlock]
  · intro c
    by_cases hc : c = chainId
    · exact Or.inl hc
    · exact Or.inr (by simp [getLastProcessedBlock, updateLastProcessedBlock, hc])

/-- C10: when a watermark `w` is already stored, the orchestrator starts from
`w` itself (`getLastProcessedBlock(...) ?? startBlock`, not `w + 1`): the
first chunk of the cycle is `[w, min(w + chunkSize - 1, targetBlock)]`, so
block `w` — the block recorded as last processed — lies in a chunk again and
is re-fetched and re-submitted (deduplication is left to the store's
unique-key handling in `saveEvents`). -/
theorem resume_refetches_watermark_block (w startBlock tgt chunkSize : Int)
    (hle : w ≤ tgt) (hcs : 1 ≤ chunkSize) :
    initialFromBlock (some w) startBlock = w ∧
    (chunkList (initialFromBlock (some w) startBlock) tgt chunkSize).head? =
      some (w, min (w + chunkSize - 1) tgt) ∧
    coverCount w (chunkList (initialFromBlock (some w) startBlock) tgt chunkSize) = 1 := by
  obtain ⟨hcov, _, _, hhead⟩ := chunkList_spec w tgt chunkSize hle hcs
  refine ⟨rfl, hhead, ?_⟩
  rw [show initialFromBlock (some w) startBlock = w from rfl, hcov w]
  simp [hle]

theorem resume_refetches_watermark_block_witness :
    initialFromBlock (some 872) 500 = 872 ∧
    (chunkList (initialFromBlock (some 872) 500) 1000 100).head? =
      some (872, min (872 + 100 - 1) 1000) ∧
    coverCount 872 (chunkList (initialFromBlock (some 872) 500) 1000 100) = 1 :=
  resume_refetches_watermark_block 872 500 1000 100 (by decide) (by decide)

/-- C1: in every cycle trace, for every source and environment, a
`saveEvents` call for a chunk immediately follows the successful
`fetchEvents` of that chunk, and every `updateLastProcessedBlock` call (the
watermark checkpoint) immediately follows a `saveEvents` for that chunk that
completed without error — the checkpoint never precedes persistence; and the
successful watermark values written across the cycle form a non-decreasing
sequence, chunks being processed in ascending block order. -/
theorem checkpoint_follows_persistence (chainId fromBlock tgt chunkSize : Int)
    (maxRetries : Nat) (env : Nat → Nat → AttemptResult) (hcs : 1 ≤ chunkSize) :
    orderedFrom none (processCycle chainId fromBlock tgt chunkSize maxRetries env) = true ∧
    (wmOkVals (processCycle chainId fromBlock tgt chunkSize maxRetries env)).Pairwise
      (· ≤ ·) := by
  unfold processCycle
  exact ⟨orderedFrom_processCycleGo chainId chunkSize tgt maxRetries env _ fromBlock none,
    (wmOkVals_processCycleGo chainId chunkSize tgt maxRetries hcs _ env fromBlock).2⟩

theorem checkpoint_follows_persistence_witness :
    orderedFrom none (processCycle 137 0 5 2 3 fun _ k => if k = 0 then .wmErr else .ok) =
      true ∧
    (wmOkVals (processCycle 137 0 5 2 3 fun _ k => if k = 0 then .wmErr else .ok)).Pairwise
      (· ≤ ·) :=
  checkpoint_follows_persistence 137 0 5 2 3 _ (by decide)

/-- C4 (amended): for every chunk `[f, t]` whose fetch-persist-checkpoint
sequence fails `maxRetries` consecutive times, the orchestrator emits exactly
one circuit-breaker alert identifying the exact unprocessed range `[f, t]`
(the alert message does not name the source), performs exactly `maxRetries`
fetch attempts, writes nothing to the store for that chunk (its loop
position, not the durable watermark, moves past the skipped range), and
continues with the next chunk rather than aborting the cycle or retrying
indefinitely; in the scenario `maxRetries = 3` with fetch failing forever on
`[100, 109]` and succeeding on `[110, 119]`, after one cycle the stored
watermark is 119, fetch was attempted exactly 3 times on `[100, 109]`, and
one alert naming `[100, 109]` was emitted. -/
theorem circuit_breaker_policy (chainId f t : Int) (mr : Nat)
    (env : Nat → AttemptResult) (hfail : ∀ k, env k ≠ .ok) :
    (processChunk chainId f t mr env).2 = false ∧
    alertCount f t (processChunk chainId f t mr env).1 = 1 ∧
    fetchCalls f t (processChunk chainId f t mr env).1 = mr ∧
    wmOkVals (processChunk chainId f t mr env).1 = [] ∧
    (∀ st, applyActions st (processChunk chainId f t mr env).1 = st) ∧
    getLastProcessedBlock (applyActions emptyWm (processCycle 7 100 119 10 3 envC4)) 7 =
      some 119 ∧
    fetchCalls 100 109 (processCycle 7 100 119 10 3 envC4) = 3 ∧
    alertCount 100 109 (processCycle 7 100 119 10 3 envC4) = 1 ∧
    Action.wmOk 7 119 ∈ processCycle 7 100 119 10 3 envC4 := by
  obtain ⟨hs, hf, hsl, hw, ha⟩ := runAttempts_all_fail chainId f t env hfail mr 0
  have hpc : processChunk chainId f t mr env =
      ((runAttempts chainId f t env mr 0).1 ++ [Action.alert f t mr], false) := by
    simp [processChunk, hs]
  have hwem : wmOkVals (processChunk chainId f t mr env).1 = [] := by
    rw [hpc, wmOkVals_append, hw]
    simp [wmOkVals]
  refine ⟨by rw [hpc], ?_, ?_, hwem, ?_, by decide, by decide, by decide, by decide⟩
  · rw [hpc]
    show alertCount f t (_ ++ _) = 1
    rw [alertCount_append, ha]
    simp [alertCount, isAlertFor]
  · rw [hpc]
    show fetchCalls f t (_ ++ _) = mr
    rw [fetchCalls_append, hf]
    simp [fetchCalls, isFetchFor]
  · intro st
    exact applyActions_of_no_wmOk _ hwem st

theorem circuit_breaker_policy_witness :
    (processChunk 7 100 109 3 fun _ => .fetchErr).2 = false ∧
    alertCount 100 109 (processChunk 7 100 109 3 fun _ => .fetchErr).1 = 1 ∧
    fetchCalls 100 109 (processChunk 7 100 109 3 fun _ => .fetchErr).1 = 3 ∧
    wmOkVals (processChunk 7 100 109 3 fun _ => .fetchErr).1 = [] ∧
    (∀ st, applyActions st (processChunk 7 100 109 3 fun _ => .fetchErr).1 = st) ∧
    getLastProcessedBlock (applyActions emptyWm (processCycle 7 100 119 10 3 envC4)) 7 =
      some 119 ∧
    fetchCalls 100 109 (processCycle 7 100 119 10 3 envC4) = 3 ∧
    alertCount 100 109 (processCycle 7 100 119 10 3 envC4) = 1 ∧
    Action.wmOk 7 119 ∈ processCycle 7 100 119 10 3 envC4 :=
  circuit_breaker_policy 7 100 109 3 (fun _ => .fetchErr)
    (fun _ => show AttemptResult.fetchErr ≠ AttemptResult.ok by decide)

/-- C4 counterexample to the claim as stated: in the claim's own scenario the
single circuit-breaker alert carries, per the log template, only the range
bounds and the retry limit — none of its interpolated values is the source
identifier (chain id 7), so the alert does not identify the source; and when
the skipped chunk is the last one of the cycle (single-chunk run over
`[100, 109]` failing forever), the durable watermark is not advanced past the
skipped chunk — the store still holds no watermark afterwards. -/
theorem circuit_breaker_policy_counterexample :
    (processCycle 7 100 119 10 3 envC4).filter isAlert = [Action.alert 100 109 3] ∧
    ¬ (7 : Int) ∈ alertFields (Action.alert 100 109 3) ∧
    getLastProcessedBlock
      (applyActions emptyWm
        (processCycle 7 100 109 10 3 fun _ _ => AttemptResult.fetchErr)) 7 = none := by
  decide

/-- C5: with `maxRetries = 5` and an environment failing on exactly the
first 3 attempts and succeeding on the 4th, the chunk ends in success, the
stored watermark is advanced to the chunk's upper bound `t`, `fetchEvents`
was called exactly 4 times, no alert was emitted, and the fixed backoff was
waited after each failure (3 sleeps, none after a final failure since the
budget was not exhausted); moreover — failure attribution — an error thrown
by fetch, by persisting, or by the watermark update counts identically as
one failed attempt: two environments whose attempts succeed at the same
indices yield the same success flag, the same number of fetch calls and the
same number of backoff waits, whatever the failure kinds. -/
theorem retry_then_succeed (chainId f t : Int) (st : WatermarkState)
    (env : Nat → AttemptResult)
    (h0 : env 0 ≠ .ok) (h1 : env 1 ≠ .ok) (h2 : env 2 ≠ .ok) (h3 : env 3 = .ok) :
    (processChunk chainId f t 5 env).2 = true ∧
    fetchCalls f t (processChunk chainId f t 5 env).1 = 4 ∧
    wmOkVals (processChunk chainId f t 5 env).1 = [t] ∧
    getLastProcessedBlock (applyActions st (processChunk chainId f t 5 env).1) chainId =
      some t ∧
    sleepCount (processChunk chainId f t 5 env).1 = 3 ∧
    alertCount f t (processChunk chainId f t 5 env).1 = 0 ∧
    (∀ (mr : Nat) (env1 env2 : Nat → AttemptResult),
        (∀ k, env1 k = .ok ↔ env2 k = .ok) →
        (runAttempts chainId f t env1 mr 0).2 = (runAttempts chainId f t env2 mr 0).2 ∧
        fetchCalls f t (runAttempts chainId f t env1 mr 0).1 =
          fetchCalls f t (runAttempts chainId f t env2 mr 0).1 ∧
        sleepCount (runAttempts chainId f t env1 mr 0).1 =
          sleepCount (runAttempts chainId f t env2 mr 0).1) := by
  have e3 : runAttempts chainId f t env 2 3 = (attemptActs chainId f t .ok, true) := by
    rw [show (2 : Nat) = 1 + 1 from rfl, runAttempts_first_ok chainId f t env 1 3 h3]
    simp [attemptActs]
  have e2 : runAttempts chainId f t env 3 2 =
      (attemptActs chainId f t (env 2) ++
        ([Action.sleepB 5000] ++ attemptActs chainId f t .ok), true) := by
    rw [show (3 : Nat) = 2 + 1 from rfl, runAttempts_step_fail chainId f t env 2 2 h2, e3]
    simp
  have e1 : runAttempts chainId f t env 4 1 =
      (attemptActs chainId f t (env 1) ++
        ([Action.sleepB 5000] ++ (attemptActs chainId f t (env 2) ++
          ([Action.sleepB 5000] ++ attemptActs chainId f t .ok))), true) := by
    rw [show (4 : Nat) = 3 + 1 from rfl, runAttempts_step_fail chainId f t env 3 1 h1, e2]
    simp
  have e0 : runAttempts chainId f t env 5 0 =
      (attemptActs chainId f t (env 0) ++
        ([Action.sleepB 5000] ++ (attemptActs chainId f t (env 1) ++
          ([Action.sleepB 5000] ++ (attemptActs chainId f t (env 2) ++
            ([Action.sleepB 5000] ++ attemptActs chainId f t .ok))))), true) := by
    rw [show (5 : Nat) = 4 + 1 from rfl, runAttempts_step_fail chainId f t env 4 0 h0, e1]
    simp
  have hpc : processChunk chainId f t 5 env = runAttempts chainId f t env 5 0 := by
    simp [processChunk, e0]
  obtain ⟨hf0, hs0, ha0⟩ := attemptActs_counts chainId f t (env 0)
  obtain ⟨hf1, hs1, ha1⟩ := attemptActs_counts chainId f t (env 1)
  obtain ⟨hf2, hs2, ha2⟩ := attemptActs_counts chainId f t (env 2)
  obtain ⟨hfo, hso, hao⟩ := attemptActs_counts chainId f t .ok
  refine ⟨by rw [hpc, e0], ?_, ?_, ?_, ?_, ?_, ?_⟩
  · rw [hpc, e0]
    show fetchCalls f t (_ ++ _) = 4
    simp only [fetchCalls_append, fetchCalls_sleep, hf0, hf1, hf2, hfo]
  · rw [hpc, e0]
    show wmOkVals (_ ++ _) = [t]
    simp only [wmOkVals_append, wmOkVals_sleep,
      attemptActs_wmOkVals_fail chainId f t (env 0) h0,
      attemptActs_wmOkVals_fail chainId f t (env 1) h1,
      attemptActs_wmOkVals_fail chainId f t (env 2) h2,
      attemptActs_wmOkVals_ok chainId f t]
    simp
  · rw [hpc, e0]
    show getLastProcessedBlock (applyActions st (_ ++ _)) chainId = some t
    simp only [applyActions_append]
    exact getLast_applyActions_okBlock chainId f t _
  · rw [hpc, e0]
    show sleepCount (_ ++ _) = 3
    simp only [sleepCount_append, sleepCount_sleep, hs0, hs1, hs2, hso]
  · rw [hpc, e0]
    show alertCount f t (_ ++ _) = 0
    simp only [alertCount_append, alertCount_sleep, ha0, ha1, ha2, hao]
  · intro mr env1 env2 henv
    exact runAttempts_env_invariant chainId f t env1 env2 henv mr 0

theorem retry_then_succeed_witness :
    (processChunk 137 100 109 5 envC5).2 = true ∧
    fetchCalls 100 109 (processChunk 137 100 109 5 envC5).1 = 4 ∧
    wmOkVals (processChunk 137 100 109 5 envC5).1 = [109] ∧
    getLastProcessedBlock (applyActions emptyWm (processChunk 137 100 109 5 envC5).1) 137 =
      some 109 ∧
    sleepCount (processChunk 137 100 109 5 envC5).1 = 3 ∧
    alertCount 100 109 (processChunk 137 100 109 5 envC5).1 = 0 ∧
    (∀ (mr : Nat) (env1 env2 : Nat → AttemptResult),
        (∀ k, env1 k = .ok ↔ env2 k = .ok) →
        (runAttempts 137 100 109 env1 mr 0).2 = (runAttempts 137 100 109 env2 mr 0).2 ∧
        fetchCalls 100 109 (runAttempts 137 100 109 env1 mr 0).1 =
          fetchCalls 100 109 (runAttempts 137 100 109 env2 mr 0).1 ∧
        sleepCount (runAttempts 137 100 109 env1 mr 0).1 =
          sleepCount (runAttempts 137 100 109 env2 mr 0).1) :=
  retry_then_succeed 137 100 109 emptyWm envC5
    (by decide) (by decide) (by decide) (by decide)

/-- C8: for every stored collection and query address `a`, the read path
returns exactly the stored events whose `integrator` equals the lowercase
normalization of `a` (a permutation of that filter — same events, same
multiplicities), ordered by block number ascending then log index ascending;
consequently a mixed-case query address yields the same result as its
all-lowercase form. -/
theorem events_query_normalized (db : List EventDocument) (a : List Char) :
    List.Perm (getEventsForIntegrator db a)
      (db.filter fun e => decide (e.integrator = toLowerAddr a)) ∧
    List.Sorted eventsLe (getEventsForIntegrator db a) ∧
    getEventsForIntegrator db a = getEventsForIntegrator db (toLowerAddr a) ∧
    (∀ e ∈ getEventsForIntegrator db a, e.integrator = toLowerAddr a) := by
  refine ⟨List.perm_insertionSort eventsLe _, List.sorted_insertionSort eventsLe _, ?_, ?_⟩
  · unfold getEventsForIntegrator
    rw [toLowerAddr_idem]
  · intro e he
    unfold getEventsForIntegrator at he
    rw [List.mem_insertionSort] at he
    exact of_decide_eq_true (List.mem_filter.mp he).2

end FeeIndexer
